import Mathlib

/-!
Shallow embedding of `src/json_parser.rs`, a nom-based parser for a
restricted JSON-like grammar, together with proofs about its behaviour.

The input is modelled as a `List Char`.  A nom parser of result type `α`
is modelled as a function `List Char → Option (List Char × α)` returning
the unconsumed remainder together with the parsed value, or `none` on a
parse error.  (None of the combinators used by this source can produce a
nom `Err::Failure`, so a single failure mode is faithful.)

The mutually recursive rules (`parse_json_value` / `parse_json_map` /
`parse_json_array` / `parse_json_root`) are embedded with an explicit
fuel parameter; `FUEL i = 3 * |i| + 3` is proved sufficient below, which
also captures the termination argument of the original recursion.
-/

namespace NomJson

abbrev Input := List Char

abbrev ParseResult (α : Type) := Option (Input × α)

abbrev Parser (α : Type) := Input → ParseResult α

/-- nom `combinator::map`. -/
def pmap {α β : Type} (p : Parser α) (f : α → β) : Parser β := fun i =>
  match p i with
  | none => none
  | some (r, x) => some (r, f x)

/-- nom `combinator::value`: replace a parser's output with a constant. -/
def pvalue {α β : Type} (v : β) (p : Parser α) : Parser β := fun i =>
  match p i with
  | none => none
  | some (r, _) => some (r, v)

/-- nom `branch::alt` restricted to two branches (nested for more). -/
def palt {α : Type} (p q : Parser α) : Parser α := fun i =>
  match p i with
  | none => q i
  | some res => some res

/-- nom `sequence::preceded`. -/
def preceded {α β : Type} (p : Parser α) (q : Parser β) : Parser β := fun i =>
  match p i with
  | none => none
  | some (r, _) => q r

/-- nom `sequence::terminated`. -/
def terminated {α β : Type} (p : Parser α) (q : Parser β) : Parser α := fun i =>
  match p i with
  | none => none
  | some (r, x) =>
    match q r with
    | none => none
    | some (r2, _) => some (r2, x)

/-- nom `sequence::delimited`. -/
def delimited {α β γ : Type} (p : Parser α) (q : Parser β) (s : Parser γ) : Parser β :=
  preceded p (terminated q s)

/-- nom `sequence::separated_pair`. -/
def separated_pair {α β γ : Type} (p : Parser α) (s : Parser γ) (q : Parser β) :
    Parser (α × β) := fun i =>
  match p i with
  | none => none
  | some (r1, x) =>
    match s r1 with
    | none => none
    | some (r2, _) =>
      match q r2 with
      | none => none
      | some (r3, y) => some (r3, (x, y))

/-- nom `character::complete::char`. -/
def char_ (c : Char) : Parser Char := fun i =>
  match i with
  | [] => none
  | d :: r => if d = c then some (r, c) else none

/-- nom `bytes::complete::tag`. -/
def tagP (t : Input) : Parser Input := fun i =>
  if t.isPrefixOf i then some (i.drop t.length, t) else none

/-- The whitespace class of `split`: `" \t\r\n".contains(c)`. -/
def is_ws (c : Char) : Bool := decide (c = ' ' ∨ c = '\t' ∨ c = '\r' ∨ c = '\n')

/-- nom `bytes::complete::take_while`. -/
def take_while (p : Char → Bool) : Parser Input := fun i =>
  some (i.dropWhile p, i.takeWhile p)

/-- Source `split`: consume a run of whitespace/tab/newline characters. -/
def split : Parser Input := take_while is_ws

/-- nom `AsChar::is_alphanum` for `char`: ASCII letter or digit. -/
def is_alphanum (c : Char) : Bool :=
  decide ((65 ≤ c.toNat ∧ c.toNat ≤ 90) ∨ (97 ≤ c.toNat ∧ c.toNat ≤ 122) ∨
    (48 ≤ c.toNat ∧ c.toNat ≤ 57))

/-- nom `character::complete::alphanumeric1`. -/
def alphanumeric1 : Parser Input := fun i =>
  if i.takeWhile is_alphanum = [] then none
  else some (i.dropWhile is_alphanum, i.takeWhile is_alphanum)

/-- Source `parse_string`: a double-quoted run of one or more ASCII
alphanumeric characters. -/
def parse_string : Parser Input :=
  preceded (char_ '"') (terminated alphanumeric1 (char_ '"'))

/-- ASCII decimal digit. -/
def is_digit (c : Char) : Bool := decide (48 ≤ c.toNat ∧ c.toNat ≤ 57)

/-- Modelled from the spec: helper of the Number rule (nom
`number::complete::double` is library code not present in this
repository).  Optionally consume a leading sign character. -/
def sign_opt (i : Input) : Input × Input :=
  match i with
  | c :: r => if c = '+' ∨ c = '-' then (⟨[c], r⟩ : Input × Input) else ([], i)
  | [] => ([], [])

/-- Modelled from the spec: mantissa of a conventional floating-point
literal, `digits ('.' digits?)?` or `'.' digits`. -/
def mantissa_part (i : Input) : Option (Input × Input) :=
  if i.takeWhile is_digit = [] then
    match i with
    | [] => none
    | c :: r =>
      if c = '.' then
        if r.takeWhile is_digit = [] then none
        else some (r.dropWhile is_digit, '.' :: r.takeWhile is_digit)
      else none
  else
    match i.dropWhile is_digit with
    | [] => some ([], i.takeWhile is_digit)
    | c :: r =>
      if c = '.' then
        some (r.dropWhile is_digit, i.takeWhile is_digit ++ '.' :: r.takeWhile is_digit)
      else some (c :: r, i.takeWhile is_digit)

/-- Modelled from the spec: optional exponent of a conventional
floating-point literal, `('e' | 'E') sign? digits`; always succeeds,
matching nothing when no well-formed exponent is present. -/
def exponent_part (i : Input) : Input × Input :=
  match i with
  | c :: r =>
    if c = 'e' ∨ c = 'E' then
      if (sign_opt r).2.takeWhile is_digit = [] then (c :: r, [])
      else ((sign_opt r).2.dropWhile is_digit,
        c :: ((sign_opt r).1 ++ (sign_opt r).2.takeWhile is_digit))
    else (c :: r, [])
  | [] => ([], [])

/-- Modelled from the spec: the Number rule, nom
`number::complete::double`, whose source is not part of this repository.
Per the spec it consumes a standard floating-point literal (optional
sign, digits, optional fractional part, optional exponent).  The
double-precision value is represented by the recognized literal text
(IEEE-754 conversion is outside the embedding). -/
def double : Parser Input := fun i =>
  match mantissa_part (sign_opt i).2 with
  | none => none
  | some (i2, m) =>
    some ((exponent_part i2).1, (sign_opt i).1 ++ m ++ (exponent_part i2).2)

/-- Source `JsonValue` tree.  `NumberF64` carries the numeric literal
text (see `double`); `Map` carries the `HashMap` contents as a
key-unique association list built by `hm_collect`. -/
inductive JsonValue : Type where
  | Null : JsonValue
  | Boolean : Bool → JsonValue
  | NumberF64 : Input → JsonValue
  | String : Input → JsonValue
  | Array : List JsonValue → JsonValue
  | Map : List (Input × JsonValue) → JsonValue

/-- `HashMap::insert`: bind `k` to `v`, overwriting any existing binding. -/
def hm_insert : List (Input × JsonValue) → Input → JsonValue → List (Input × JsonValue)
  | [], k, v => [(k, v)]
  | (k2, v2) :: rest, k, v =>
    if k2 = k then (k, v) :: rest else (k2, v2) :: hm_insert rest k v

/-- `HashMap` lookup. -/
def hm_get : List (Input × JsonValue) → Input → Option JsonValue
  | [], _ => none
  | (k2, v) :: rest, k => if k2 = k then some v else hm_get rest k

/-- `tuple_vec.into_iter().collect::<HashMap<_, _>>()`: left-to-right
insertion, so a later duplicate key overwrites an earlier one. -/
def hm_collect (tv : List (Input × JsonValue)) : List (Input × JsonValue) :=
  tv.foldl (fun m kv => hm_insert m kv.1 kv.2) []

/-- nom `multi::separated_list0`, main loop.  The `Nat` argument is
iteration fuel (each continuing iteration strictly consumes input, so
`|i| + 1` iterations suffice; see `sepLoop_congr`).  After a separator
that consumed nothing, nom reports an error; after a failed separator or
element, the elements so far are returned at the position before the
separator. -/
def sepLoop {σ β : Type} : Nat → Parser σ → Parser β → Input → List β → ParseResult (List β)
  | 0, _, _, _, _ => none
  | f + 1, sep, elem, i, acc =>
    match sep i with
    | none => some (i, acc)
    | some (i1, _) =>
      if i1.length = i.length then none
      else
        match elem i1 with
        | none => some (i, acc)
        | some (i2, x) => sepLoop f sep elem i2 (acc ++ [x])

/-- nom `multi::separated_list0`. -/
def sepList0 {σ β : Type} (f : Nat) (sep : Parser σ) (elem : Parser β) :
    Parser (List β) := fun i =>
  match elem i with
  | none => some (i, [])
  | some (i1, x) => sepLoop f sep elem i1 [x]

def trueLit : Input := ['t', 'r', 'u', 'e']
def falseLit : Input := ['f', 'a', 'l', 's', 'e']
def nullLit : Input := ['n', 'u', 'l', 'l']

/-- The non-root alternatives of `parse_json_value`: boolean
(`alt((value(true, tag("true")), value(false, tag("false"))))`), number
(`double`), quoted string. -/
def leafAlts : Parser JsonValue :=
  palt
    (pmap (palt (pvalue true (tagP trueLit)) (pvalue false (tagP falseLit)))
      JsonValue.Boolean)
    (palt (pmap double JsonValue.NumberF64)
      (pmap parse_string JsonValue.String))

mutual

/-- Source `parse_json_value` (fueled): skip whitespace, then try the
root alternatives, then boolean, number, quoted string (`leafAlts`). -/
def parse_json_value : Nat → Parser JsonValue
  | 0 => fun _ => none
  | f + 1 => preceded split (palt (parse_json_root f) leafAlts)

/-- Source `parse_json_root` (fueled): the root of the tree must be one
of Map / Array / Null. -/
def parse_json_root : Nat → Parser JsonValue
  | 0 => fun _ => none
  | f + 1 =>
    palt (pmap (parse_json_map f) JsonValue.Map)
      (palt (pmap (parse_json_array f) JsonValue.Array)
        (pmap (pvalue () (tagP nullLit)) (fun _ => JsonValue.Null)))

/-- Source `parse_json_map` (fueled). -/
def parse_json_map : Nat → Parser (List (Input × JsonValue))
  | 0 => fun _ => none
  | f + 1 =>
    preceded (char_ '{')
      (terminated
        (pmap
          (sepList0 (f + 1) (preceded split (char_ ','))
            (separated_pair (preceded split parse_string) (preceded split (char_ ':'))
              (parse_json_value f)))
          hm_collect)
        (preceded split (char_ '}')))

/-- Source `parse_json_array` (fueled). -/
def parse_json_array : Nat → Parser (List JsonValue)
  | 0 => fun _ => none
  | f + 1 =>
    preceded (char_ '[')
      (terminated
        (sepList0 (f + 1) (preceded split (char_ ',')) (parse_json_value f))
        (preceded split (char_ ']')))

end

/-- Fuel sufficient for input `i` (proved by `stab_all` below). -/
def FUEL (i : Input) : Nat := 3 * i.length + 3

/-- Source `parse_json_str`: the root rule with surrounding whitespace
trimmed.  Note there is no `all_consuming`: the remainder is returned,
not required to be empty. -/
def parse_json_str (i : Input) : ParseResult JsonValue :=
  delimited split (parse_json_root (FUEL i)) split i

/-- The two error kinds of `JsonValue::from_str`.  The encoding error
carries its fixed message; the text of a grammar error is produced by
nom's `Display` and is not modelled. -/
inductive JsonError : Type where
  | encodingError : String → JsonError
  | parseError : JsonError

/-- The fixed message of the encoding error. -/
def encodingMsg : String :=
  "only support ASCII alphanumeric, does not support string contains Unicode"

/-- Rust `char::is_ascii`. -/
def is_ascii (c : Char) : Bool := decide (c.toNat ≤ 127)

/-- Source `JsonValue::from_str`: reject any non-ASCII character up
front, then run `parse_json_str` and keep only the parsed value
(`val.1`), ignoring the unconsumed remainder. -/
def JsonValue.from_str (s : Input) : Except JsonError JsonValue :=
  if !(s.all is_ascii) then
    Except.error (JsonError.encodingError encodingMsg)
  else
    match parse_json_str s with
    | some (_, v) => Except.ok v
    | none => Except.error JsonError.parseError

/-! ### List helper lemmas -/

theorem length_dropWhile_le (p : Char → Bool) (l : Input) :
    (l.dropWhile p).length ≤ l.length := by
  induction l with
  | nil => simp
  | cons c t ih =>
    by_cases h : p c
    · simp [List.dropWhile_cons, h]
      omega
    · simp [List.dropWhile_cons, h]

theorem dropWhile_append_all (p : Char → Bool) (l₁ l₂ : Input)
    (h1 : ∀ c ∈ l₁, p c = true) :
    (l₁ ++ l₂).dropWhile p = l₂.dropWhile p := by
  induction l₁ with
  | nil => simp
  | cons c t ih =>
    have hc : p c = true := h1 c (by simp)
    simp only [List.cons_append, List.dropWhile_cons, hc, if_true]
    exact ih (fun d hd => h1 d (by simp [hd]))

theorem dropWhile_cons_false (p : Char → Bool) (c : Char) (l : Input)
    (h : p c = false) : (c :: l).dropWhile p = c :: l := by
  simp [List.dropWhile_cons, h]

theorem takeWhile_all_stop (p : Char → Bool) (l₁ : Input) (x : Char) (l₂ : Input)
    (h1 : ∀ c ∈ l₁, p c = true) (h2 : p x = false) :
    (l₁ ++ x :: l₂).takeWhile p = l₁ := by
  induction l₁ with
  | nil => simp [List.takeWhile_cons, h2]
  | cons c t ih =>
    have hc : p c = true := h1 c (by simp)
    simp only [List.cons_append, List.takeWhile_cons, hc, if_true]
    rw [ih (fun d hd => h1 d (by simp [hd]))]

theorem dropWhile_all_stop (p : Char → Bool) (l₁ : Input) (x : Char) (l₂ : Input)
    (h1 : ∀ c ∈ l₁, p c = true) (h2 : p x = false) :
    (l₁ ++ x :: l₂).dropWhile p = x :: l₂ := by
  rw [dropWhile_append_all p l₁ (x :: l₂) h1, dropWhile_cons_false p x l₂ h2]

/-! ### Consumption: every parser's remainder is no longer than its input -/

/-- A parser never lengthens the input: the remainder of a success is at
most as long as the input. -/
def Consumes {α : Type} (p : Parser α) : Prop :=
  ∀ i r x, p i = some (r, x) → r.length ≤ i.length

theorem consumes_pmap {α β : Type} {p : Parser α} (f : α → β) (h : Consumes p) :
    Consumes (pmap p f) := by
  intro i r x hp
  unfold pmap at hp
  split at hp
  · exact absurd hp (by simp)
  · rename_i r1 x1 heq
    simp only [Option.some.injEq, Prod.mk.injEq] at hp
    rw [← hp.1]
    exact h i r1 x1 heq

theorem consumes_pvalue {α β : Type} {p : Parser α} (v : β) (h : Consumes p) :
    Consumes (pvalue v p) := by
  intro i r x hp
  unfold pvalue at hp
  split at hp
  · exact absurd hp (by simp)
  · rename_i r1 x1 heq
    simp only [Option.some.injEq, Prod.mk.injEq] at hp
    rw [← hp.1]
    exact h i r1 x1 heq

theorem consumes_palt {α : Type} {p q : Parser α} (hp : Consumes p) (hq : Consumes q) :
    Consumes (palt p q) := by
  intro i r x h
  unfold palt at h
  split at h
  · exact hq i r x h
  · rename_i res heq
    simp only [Option.some.injEq] at h
    subst h
    exact hp i r x heq

theorem consumes_preceded {α β : Type} {p : Parser α} {q : Parser β}
    (hp : Consumes p) (hq : Consumes q) : Consumes (preceded p q) := by
  intro i r x h
  unfold preceded at h
  split at h
  · exact absurd h (by simp)
  · rename_i r1 x1 heq
    exact le_trans (hq r1 r x h) (hp i r1 x1 heq)

theorem consumes_terminated {α β : Type} {p : Parser α} {q : Parser β}
    (hp : Consumes p) (hq : Consumes q) : Consumes (terminated p q) := by
  intro i r x h
  unfold terminated at h
  split at h
  · exact absurd h (by simp)
  · rename_i r1 x1 heq1
    split at h
    · exact absurd h (by simp)
    · rename_i r2 y heq2
      simp only [Option.some.injEq, Prod.mk.injEq] at h
      rw [← h.1]
      exact le_trans (hq r1 r2 y heq2) (hp i r1 x1 heq1)

theorem consumes_separated_pair {α β γ : Type} {p : Parser α} {s : Parser γ} {q : Parser β}
    (hp : Consumes p) (hs : Consumes s) (hq : Consumes q) :
    Consumes (separated_pair p s q) := by
  intro i r x h
  unfold separated_pair at h
  split at h
  · exact absurd h (by simp)
  · rename_i r1 x1 heq1
    split at h
    · exact absurd h (by simp)
    · rename_i r2 y2 heq2
      split at h
      · exact absurd h (by simp)
      · rename_i r3 y3 heq3
        simp only [Option.some.injEq, Prod.mk.injEq] at h
        rw [← h.1]
        exact le_trans (hq r2 r3 y3 heq3)
          (le_trans (hs r1 r2 y2 heq2) (hp i r1 x1 heq1))

theorem consumes_char (c : Char) : Consumes (char_ c) := by
  intro i r x h
  unfold char_ at h
  split at h
  · exact absurd h (by simp)
  · split at h
    · cases h; simp
    · exact absurd h (by simp)

theorem consumes_char_strict (c : Char) :
    ∀ i r x, char_ c i = some (r, x) → r.length < i.length := by
  intro i r x h
  unfold char_ at h
  split at h
  · exact absurd h (by simp)
  · split at h
    · cases h; simp [Nat.lt_succ_self]
    · exact absurd h (by simp)

theorem consumes_tag (t : Input) : Consumes (tagP t) := by
  intro i r x h
  unfold tagP at h
  split at h
  · cases h; simp
  · exact absurd h (by simp)

theorem consumes_take_while (p : Char → Bool) : Consumes (take_while p) := by
  intro i r x h
  unfold take_while at h
  cases h
  exact length_dropWhile_le p i

theorem consumes_split : Consumes split := consumes_take_while is_ws

theorem consumes_alphanumeric1 : Consumes alphanumeric1 := by
  intro i r x h
  unfold alphanumeric1 at h
  split at h
  · exact absurd h (by simp)
  · cases h
    exact length_dropWhile_le is_alphanum i

theorem consumes_parse_string : Consumes parse_string :=
  consumes_preceded (consumes_char '"')
    (consumes_terminated consumes_alphanumeric1 (consumes_char '"'))

theorem sign_opt_suffix (i : Input) : i = (sign_opt i).1 ++ (sign_opt i).2 := by
  unfold sign_opt
  cases i with
  | nil => rfl
  | cons c r => by_cases h : c = '+' ∨ c = '-' <;> simp [h]

theorem mantissa_part_suffix (i : Input) :
    ∀ r m, mantissa_part i = some (r, m) → i = m ++ r := by
  intro r m h
  unfold mantissa_part at h
  split at h
  · -- leading digit run is empty
    split at h
    · exact absurd h (by simp)
    · rename_i c t
      split at h
      · rename_i hc
        subst hc
        split at h
        · exact absurd h (by simp)
        · cases h
          simp [List.takeWhile_append_dropWhile]
      · exact absurd h (by simp)
  · -- nonempty leading digit run
    have hsplit : i.takeWhile is_digit ++ i.dropWhile is_digit = i :=
      List.takeWhile_append_dropWhile is_digit i
    split at h
    · rename_i hdw
      cases h
      conv_lhs => rw [← hsplit, hdw]
    · rename_i c t hdw
      split at h
      · rename_i hc
        subst hc
        cases h
        conv_lhs => rw [← hsplit, hdw]
        simp [List.takeWhile_append_dropWhile]
      · cases h
        conv_lhs => rw [← hsplit, hdw]

theorem exponent_part_suffix (i : Input) :
    i = (exponent_part i).2 ++ (exponent_part i).1 := by
  cases i with
  | nil => rfl
  | cons c r =>
    have h1 : r = (sign_opt r).1 ++ (sign_opt r).2 := sign_opt_suffix r
    have h2 : (sign_opt r).2.takeWhile is_digit ++ (sign_opt r).2.dropWhile is_digit
        = (sign_opt r).2 := List.takeWhile_append_dropWhile is_digit (sign_opt r).2
    by_cases hc : c = 'e' ∨ c = 'E'
    · by_cases hds : (sign_opt r).2.takeWhile is_digit = []
      · simp [exponent_part, hc, hds]
      · simp only [exponent_part, if_pos hc, if_neg hds, List.cons_append,
          List.append_assoc, List.cons.injEq, true_and]
        rw [h2, ← h1]
    · simp [exponent_part, hc]

theorem double_suffix : ∀ i r x, double i = some (r, x) → i = x ++ r := by
  intro i r x h
  unfold double at h
  split at h
  · exact absurd h (by simp)
  · rename_i i2 m heq
    cases h
    have h1 := sign_opt_suffix i
    have h2 := mantissa_part_suffix (sign_opt i).2 i2 m heq
    have h3 := exponent_part_suffix i2
    calc i = (sign_opt i).1 ++ (sign_opt i).2 := h1
    _ = (sign_opt i).1 ++ (m ++ i2) := by rw [← h2]
    _ = (sign_opt i).1 ++ (m ++ ((exponent_part i2).2 ++ (exponent_part i2).1)) := by
        rw [← h3]
    _ = (sign_opt i).1 ++ m ++ (exponent_part i2).2 ++ (exponent_part i2).1 := by
        simp [List.append_assoc]

theorem consumes_double : Consumes double := by
  intro i r x h
  have := double_suffix i r x h
  rw [this]
  simp

theorem consumes_sepLoop {σ β : Type} {sep : Parser σ} {elem : Parser β}
    (hs : Consumes sep) (he : Consumes elem) :
    ∀ f i acc r xs, sepLoop f sep elem i acc = some (r, xs) → r.length ≤ i.length := by
  intro f
  induction f with
  | zero => intro i acc r xs h; exact absurd h (by simp [sepLoop])
  | succ g ih =>
    intro i acc r xs h
    unfold sepLoop at h
    split at h
    · cases h; exact le_refl _
    · rename_i i1 s1 heq
      split at h
      · exact absurd h (by simp)
      · rename_i hne
        split at h
        · cases h; exact le_refl _
        · rename_i i2 x2 heq2
          exact le_trans (ih i2 (acc ++ [x2]) r xs h)
            (le_trans (he i1 i2 x2 heq2) (hs i i1 s1 heq))

theorem consumes_sepList0 {σ β : Type} {sep : Parser σ} {elem : Parser β}
    (f : Nat) (hs : Consumes sep) (he : Consumes elem) :
    Consumes (sepList0 f sep elem) := by
  intro i r xs h
  unfold sepList0 at h
  split at h
  · cases h; exact le_refl _
  · rename_i i1 x1 heq
    exact le_trans (consumes_sepLoop hs he f i1 [x1] r xs h) (he i i1 x1 heq)

theorem consumes_leafAlts : Consumes leafAlts := by
  unfold leafAlts
  exact consumes_palt
    (consumes_pmap _ (consumes_palt (consumes_pvalue _ (consumes_tag trueLit))
      (consumes_pvalue _ (consumes_tag falseLit))))
    (consumes_palt (consumes_pmap _ consumes_double)
      (consumes_pmap _ consumes_parse_string))

theorem consumes_json : ∀ f : Nat,
    Consumes (parse_json_value f) ∧ Consumes (parse_json_root f) ∧
    Consumes (parse_json_map f) ∧ Consumes (parse_json_array f) := by
  intro f
  induction f with
  | zero =>
    refine ⟨?_, ?_, ?_, ?_⟩ <;>
      (intro i r x h; exact absurd h (by simp [parse_json_value, parse_json_root,
        parse_json_map, parse_json_array]))
  | succ g ih =>
    obtain ⟨hv, hr, hm, ha⟩ := ih
    have hsep : Consumes (preceded split (char_ ',')) :=
      consumes_preceded consumes_split (consumes_char ',')
    have hpair : Consumes (separated_pair (preceded split parse_string)
        (preceded split (char_ ':')) (parse_json_value g)) :=
      consumes_separated_pair
        (consumes_preceded consumes_split consumes_parse_string)
        (consumes_preceded consumes_split (consumes_char ':')) hv
    have hmap : Consumes (parse_json_map (g + 1)) := by
      unfold parse_json_map
      exact consumes_preceded (consumes_char '{')
        (consumes_terminated
          (consumes_pmap _ (consumes_sepList0 (g + 1) hsep hpair))
          (consumes_preceded consumes_split (consumes_char '}')))
    have harr : Consumes (parse_json_array (g + 1)) := by
      unfold parse_json_array
      exact consumes_preceded (consumes_char '[')
        (consumes_terminated
          (consumes_sepList0 (g + 1) hsep hv)
          (consumes_preceded consumes_split (consumes_char ']')))
    have hroot : Consumes (parse_json_root (g + 1)) := by
      unfold parse_json_root
      exact consumes_palt (consumes_pmap _ hm)
        (consumes_palt (consumes_pmap _ ha)
          (consumes_pmap _ (consumes_pvalue _ (consumes_tag nullLit))))
    have hval : Consumes (parse_json_value (g + 1)) := by
      unfold parse_json_value
      exact consumes_preceded consumes_split (consumes_palt hr consumes_leafAlts)
    exact ⟨hval, hroot, hmap, harr⟩

/-! ### Success-shape elimination lemmas for the combinators -/

theorem palt_eq_some {α : Type} {p q : Parser α} {i r : Input} {x : α}
    (h : palt p q i = some (r, x)) : p i = some (r, x) ∨ q i = some (r, x) := by
  unfold palt at h
  split at h
  · exact Or.inr h
  · rename_i res heq
    simp only [Option.some.injEq] at h
    subst h
    exact Or.inl heq

theorem pmap_eq_some {α β : Type} {p : Parser α} {f : α → β} {i r : Input} {y : β}
    (h : pmap p f i = some (r, y)) : ∃ x, p i = some (r, x) ∧ y = f x := by
  unfold pmap at h
  split at h
  · exact absurd h (by simp)
  · rename_i r1 x1 heq
    simp only [Option.some.injEq, Prod.mk.injEq] at h
    exact ⟨x1, h.1 ▸ heq, h.2.symm⟩

theorem pvalue_eq_some {α β : Type} {p : Parser α} {v : β} {i r : Input} {y : β}
    (h : pvalue v p i = some (r, y)) : y = v ∧ ∃ x, p i = some (r, x) := by
  unfold pvalue at h
  split at h
  · exact absurd h (by simp)
  · rename_i r1 x1 heq
    simp only [Option.some.injEq, Prod.mk.injEq] at h
    exact ⟨h.2.symm, x1, h.1 ▸ heq⟩

theorem preceded_eq_some {α β : Type} {p : Parser α} {q : Parser β} {i r : Input} {y : β}
    (h : preceded p q i = some (r, y)) :
    ∃ r1 x, p i = some (r1, x) ∧ q r1 = some (r, y) := by
  unfold preceded at h
  split at h
  · exact absurd h (by simp)
  · rename_i r1 x1 heq
    exact ⟨r1, x1, heq, h⟩

theorem terminated_eq_some {α β : Type} {p : Parser α} {q : Parser β} {i r : Input} {x : α}
    (h : terminated p q i = some (r, x)) :
    ∃ r1 y, p i = some (r1, x) ∧ q r1 = some (r, y) := by
  unfold terminated at h
  split at h
  · exact absurd h (by simp)
  · rename_i r1 x1 heq1
    split at h
    · exact absurd h (by simp)
    · rename_i r2 y heq2
      simp only [Option.some.injEq, Prod.mk.injEq] at h
      refine ⟨r1, y, ?_, ?_⟩
      · rw [← h.2]; exact heq1
      · rw [← h.1]; exact heq2

theorem separated_pair_eq_some {α β γ : Type} {p : Parser α} {s : Parser γ} {q : Parser β}
    {i r : Input} {z : α × β} (h : separated_pair p s q i = some (r, z)) :
    ∃ r1 r2 y, p i = some (r1, z.1) ∧ s r1 = some (r2, y) ∧ q r2 = some (r, z.2) := by
  unfold separated_pair at h
  split at h
  · exact absurd h (by simp)
  · rename_i r1 x1 heq1
    split at h
    · exact absurd h (by simp)
    · rename_i r2 y2 heq2
      split at h
      · exact absurd h (by simp)
      · rename_i r3 y3 heq3
        simp only [Option.some.injEq, Prod.mk.injEq] at h
        obtain ⟨hr, hz⟩ := h
        subst hr
        rw [← hz]
        exact ⟨r1, r2, y2, heq1, heq2, heq3⟩

theorem char_eq_some {c : Char} {i r : Input} {x : Char}
    (h : char_ c i = some (r, x)) : i = c :: r ∧ x = c := by
  unfold char_ at h
  split at h
  · exact absurd h (by simp)
  · rename_i d t
    split at h
    · rename_i hd
      simp only [Option.some.injEq, Prod.mk.injEq] at h
      subst hd
      exact ⟨by rw [h.1], h.2.symm⟩
    · exact absurd h (by simp)

/-! ### Failure on empty input and on impossible first characters -/

theorem leafAlts_nil : leafAlts [] = none := rfl

theorem map_nil (f : Nat) : parse_json_map f [] = none := by
  cases f with
  | zero => rfl
  | succ g => simp [parse_json_map, preceded, char_]

theorem array_nil (f : Nat) : parse_json_array f [] = none := by
  cases f with
  | zero => rfl
  | succ g => simp [parse_json_array, preceded, char_]

theorem root_nil (f : Nat) : parse_json_root f [] = none := by
  cases f with
  | zero => rfl
  | succ g =>
    simp [parse_json_root, palt, pmap, pvalue, map_nil g, array_nil g, tagP,
      List.isPrefixOf, nullLit]

theorem value_nil (f : Nat) : parse_json_value f [] = none := by
  cases f with
  | zero => rfl
  | succ g =>
    simp [parse_json_value, preceded, split, take_while, palt, root_nil g, leafAlts_nil]

theorem tag_head_fail (a c : Char) (t r : Input) (h : a ≠ c) :
    tagP (a :: t) (c :: r) = none := by
  have hpre : (a :: t).isPrefixOf (c :: r) = false := by
    show (a == c && t.isPrefixOf r) = false
    simp [h]
  simp [tagP, hpre]

theorem map_head_fail (f : Nat) (c : Char) (t : Input) (h : c ≠ '{') :
    parse_json_map f (c :: t) = none := by
  cases f with
  | zero => rfl
  | succ g => simp [parse_json_map, preceded, char_, h]

theorem array_head_fail (f : Nat) (c : Char) (t : Input) (h : c ≠ '[') :
    parse_json_array f (c :: t) = none := by
  cases f with
  | zero => rfl
  | succ g => simp [parse_json_array, preceded, char_, h]

theorem root_head_fail (f : Nat) (c : Char) (t : Input)
    (h1 : c ≠ '{') (h2 : c ≠ '[') (h3 : c ≠ 'n') :
    parse_json_root f (c :: t) = none := by
  cases f with
  | zero => rfl
  | succ g =>
    have hnull : tagP nullLit (c :: t) = none :=
      tag_head_fail 'n' c ['u', 'l', 'l'] t (Ne.symm h3)
    simp [parse_json_root, palt, pmap, pvalue, map_head_fail g c t h1,
      array_head_fail g c t h2, hnull]

/-- Every value produced by the Root rule is Map, Array, or Null. -/
theorem root_shape (f : Nat) (i r : Input) (v : JsonValue)
    (h : parse_json_root f i = some (r, v)) :
    v = JsonValue.Null ∨ (∃ xs, v = JsonValue.Array xs) ∨ ∃ m, v = JsonValue.Map m := by
  cases f with
  | zero => exact absurd h (by simp [parse_json_root])
  | succ g =>
    unfold parse_json_root at h
    rcases palt_eq_some h with h1 | h1
    · obtain ⟨m, _, hv⟩ := pmap_eq_some h1
      exact Or.inr (Or.inr ⟨m, hv⟩)
    · rcases palt_eq_some h1 with h2 | h2
      · obtain ⟨xs, _, hv⟩ := pmap_eq_some h2
        exact Or.inr (Or.inl ⟨xs, hv⟩)
      · obtain ⟨u, _, hv⟩ := pmap_eq_some h2
        exact Or.inl hv

/-! ### Claim theorems -/

/-- C1, counterexample: on the input "null x" the Root rule succeeds on
the proper prefix "null" of the trimmed input, leaving the unconsumed
non-whitespace text "x" behind, yet `JsonValue::from_str` returns the
parsed tree (`Ok(Null)`), not an error: the entry point never checks
that the parse consumed the input. -/
theorem spec_c1_counterexample :
    parse_json_str ("null x".data) = some (("x".data), JsonValue.Null)
    ∧ JsonValue.from_str ("null x".data) = Except.ok JsonValue.Null :=
  ⟨rfl, rfl⟩

/-- C1, amended: for every input on which the Root rule succeeds on a
proper prefix of the trimmed input, leaving unconsumed non-whitespace
text behind, `JsonValue::from_str` returns the tree parsed from that
prefix (`Ok`), silently ignoring the unconsumed text, rather than an
error. -/
theorem spec_c1_amended (s r : Input) (v : JsonValue)
    (hascii : ∀ c ∈ s, is_ascii c = true)
    (hp : parse_json_str s = some (r, v)) (_hne : r ≠ [])
    (_hnws : ∃ c ∈ r, is_ws c = false) :
    JsonValue.from_str s = Except.ok v := by
  unfold JsonValue.from_str
  rw [List.all_eq_true.mpr hascii]
  simp [hp]

/-- C1, witness for the amended claim at the input "null x". -/
theorem spec_c1_witness :
    JsonValue.from_str ("null x".data) = Except.ok JsonValue.Null :=
  spec_c1_amended ("null x".data) ("x".data) JsonValue.Null (by decide) rfl
    (by decide) ⟨'x', by decide, by decide⟩

/-- C3: an input containing at least one character outside the ASCII
range makes `JsonValue::from_str` fail with the encoding error before
any parsing is attempted, whatever the rest of the content; the error
carries the fixed message `encodingMsg` (no position information). -/
theorem spec_c3 (s : Input) (h : ∃ c ∈ s, is_ascii c = false) :
    JsonValue.from_str s = Except.error (JsonError.encodingError encodingMsg) := by
  obtain ⟨c, hc, hf⟩ := h
  have hall : s.all is_ascii = false := by
    cases hb : s.all is_ascii with
    | false => rfl
    | true =>
      exfalso
      have := List.all_eq_true.mp hb c hc
      rw [hf] at this
      exact Bool.false_ne_true this
  unfold JsonValue.from_str
  rw [hall]
  simp

/-- C3, witness at a one-character non-ASCII input. -/
theorem spec_c3_witness :
    JsonValue.from_str ['中'] = Except.error (JsonError.encodingError encodingMsg) :=
  spec_c3 ['中'] ⟨'中', by decide, by decide⟩

/-- C6: malformed structural input — an array with a trailing comma
`[1,]`, an unmatched opening brace, a map pair missing its colon — each
makes `JsonValue::from_str` return an error value.  (The embedding is a
total function into `Except`, so an error value is the only failure
mode, matching the absence of panicking operations in the source.) -/
theorem spec_c6 :
    JsonValue.from_str ("[1,]".data) = Except.error JsonError.parseError
    ∧ JsonValue.from_str ("\x7b".data) = Except.error JsonError.parseError
    ∧ JsonValue.from_str ("\x7b\"a\" true\x7d".data) = Except.error JsonError.parseError :=
  ⟨rfl, rfl, rfl⟩

/-- C10: at nested positions a keyword literal followed by extra
alphanumeric characters is matched as the bare keyword, leaving the
suffix unconsumed (first conjunct: the Value rule maps "nullable]" to
`Null` with remainder "able]"), and the enclosing closing-delimiter
check then fails, so `JsonValue::from_str` rejects `[nullable]`,
`[truex]` and `[falsey]`. -/
theorem spec_c10 :
    parse_json_value 5 ("nullable]".data) = some (("able]".data), JsonValue.Null)
    ∧ JsonValue.from_str ("[nullable]".data) = Except.error JsonError.parseError
    ∧ JsonValue.from_str ("[truex]".data) = Except.error JsonError.parseError
    ∧ JsonValue.from_str ("[falsey]".data) = Except.error JsonError.parseError :=
  ⟨rfl, rfl, rfl, rfl⟩

theorem char_self (c : Char) (t : Input) : char_ c (c :: t) = some (t, c) := by
  simp [char_]

theorem alphanumeric1_eq_some {i r t : Input} (h : alphanumeric1 i = some (r, t)) :
    t = i.takeWhile is_alphanum ∧ r = i.dropWhile is_alphanum ∧ t ≠ [] := by
  unfold alphanumeric1 at h
  split at h
  · exact absurd h (by simp)
  · rename_i hne
    simp only [Option.some.injEq, Prod.mk.injEq] at h
    refine ⟨h.2.symm, h.1.symm, ?_⟩
    intro ht
    rw [ht] at h
    exact hne h.2

/-- C4: the Quoted-string rule succeeds exactly on inputs beginning with
a double quote, one or more ASCII letters or digits, and a closing
double quote, returning the inner text (first conjunct: success implies
that shape; second conjunct: every input of that shape succeeds).  In
particular it fails on empty quoted content and on any non-alphanumeric
inner character, and failure consumes nothing (a parser here is a pure
function returning `none` on failure). -/
theorem spec_c4 (i : Input) :
    (∀ r s, parse_string i = some (r, s) →
      i = '"' :: (s ++ '"' :: r) ∧ s ≠ [] ∧ ∀ c ∈ s, is_alphanum c = true)
    ∧ (∀ content r, content ≠ [] → (∀ c ∈ content, is_alphanum c = true) →
      i = '"' :: (content ++ '"' :: r) → parse_string i = some (r, content)) := by
  constructor
  · intro r s h
    obtain ⟨r1, x, hchar, hterm⟩ := preceded_eq_some h
    obtain ⟨hi, hx⟩ := char_eq_some hchar
    obtain ⟨r2, y, halpha, hclose⟩ := terminated_eq_some hterm
    obtain ⟨hs, hr2, hne⟩ := alphanumeric1_eq_some halpha
    obtain ⟨hr2e, hy⟩ := char_eq_some hclose
    have hr1 : r1 = s ++ '"' :: r := by
      conv_lhs => rw [← List.takeWhile_append_dropWhile is_alphanum r1]
      rw [← hs, ← hr2, hr2e]
    refine ⟨?_, hne, ?_⟩
    · rw [hi, hr1]
    · intro c hc
      rw [hs] at hc
      exact List.mem_takeWhile_imp hc
  · intro content r hne hall hi
    subst hi
    have htw : (content ++ '"' :: r).takeWhile is_alphanum = content :=
      takeWhile_all_stop is_alphanum content '"' r hall (by decide)
    have hdw : (content ++ '"' :: r).dropWhile is_alphanum = '"' :: r :=
      dropWhile_all_stop is_alphanum content '"' r hall (by decide)
    have halpha : alphanumeric1 (content ++ '"' :: r) = some (('"' :: r : Input), content) := by
      unfold alphanumeric1
      rw [htw, hdw, if_neg hne]
    simp only [parse_string, preceded, terminated, char_self, halpha]

/-- C4, witness: the rule accepts a two-letter quoted string and
returns the inner text together with the unconsumed suffix. -/
theorem spec_c4_witness :
    parse_string ("\"ab\"x".data) = some (("x".data), ("ab".data)) :=
  (spec_c4 ("\"ab\"x".data)).2 ("ab".data) ("x".data) (by decide) (by decide) rfl

theorem ws_ascii (c : Char) (h : is_ws c = true) : is_ascii c = true := by
  unfold is_ws at h
  rw [decide_eq_true_iff] at h
  rcases h with h | h | h | h <;> subst h <;> decide

/-- C9: every input consisting only of ASCII whitespace (space, tab, CR,
LF), including the empty input, is rejected by `JsonValue::from_str`:
after trimming, the Root rule faces an empty input and fails. -/
theorem spec_c9 (s : Input) (h : ∀ c ∈ s, is_ws c = true) :
    JsonValue.from_str s = Except.error JsonError.parseError := by
  have hascii : s.all is_ascii = true :=
    List.all_eq_true.mpr (fun c hc => ws_ascii c (h c hc))
  have hdw : s.dropWhile is_ws = [] := List.dropWhile_eq_nil_iff.mpr h
  have hstr : parse_json_str s = none := by
    unfold parse_json_str delimited preceded terminated
    simp only [split, take_while, hdw, root_nil]
  unfold JsonValue.from_str
  rw [hascii, hstr]
  simp

/-- C9, witness at the four whitespace characters and implicitly at the
empty input via the universally quantified hypothesis. -/
theorem spec_c9_witness :
    JsonValue.from_str (" \t\r\n".data) = Except.error JsonError.parseError :=
  spec_c9 (" \t\r\n".data) (by decide)

/-! ### HashMap model: insertion-overwrite semantics -/

/-- The value bound to `k` by the textually last pair with key `k`. -/
def lastLookup (tv : List (Input × JsonValue)) (k : Input) : Option JsonValue :=
  tv.foldl (fun a kv => if kv.1 = k then some kv.2 else a) none

theorem hm_get_insert (m : List (Input × JsonValue)) (k1 : Input) (v1 : JsonValue)
    (k : Input) :
    hm_get (hm_insert m k1 v1) k = if k1 = k then some v1 else hm_get m k := by
  induction m with
  | nil => rfl
  | cons p rest ih =>
    obtain ⟨k2, v2⟩ := p
    by_cases h2 : k2 = k1
    · subst h2
      by_cases hk : k2 = k
      · subst hk
        simp [hm_insert, hm_get]
      · simp [hm_insert, hm_get, hk]
    · by_cases hk : k2 = k
      · subst hk
        have hne : ¬(k1 = k2) := fun he => h2 he.symm
        simp [hm_insert, hm_get, h2, hne, ih]
      · simp [hm_insert, hm_get, h2, hk, ih]

theorem hm_get_foldl (tv : List (Input × JsonValue)) (m : List (Input × JsonValue))
    (k : Input) :
    hm_get (tv.foldl (fun m2 kv => hm_insert m2 kv.1 kv.2) m) k
      = tv.foldl (fun a kv => if kv.1 = k then some kv.2 else a) (hm_get m k) := by
  induction tv generalizing m with
  | nil => rfl
  | cons p rest ih =>
    obtain ⟨k1, v1⟩ := p
    simp only [List.foldl_cons]
    rw [ih, hm_get_insert]

theorem hm_collect_get (tv : List (Input × JsonValue)) (k : Input) :
    hm_get (hm_collect tv) k = lastLookup tv k := by
  unfold hm_collect lastLookup
  rw [hm_get_foldl]
  rfl

theorem hm_insert_mem (m : List (Input × JsonValue)) (k : Input) (v : JsonValue) :
    ∀ b ∈ hm_insert m k v, b.1 = k ∨ b ∈ m := by
  induction m with
  | nil =>
    intro b hb
    simp only [hm_insert, List.mem_singleton] at hb
    subst hb
    exact Or.inl rfl
  | cons p rest ih =>
    obtain ⟨k2, v2⟩ := p
    intro b hb
    unfold hm_insert at hb
    by_cases h2 : k2 = k
    · rw [if_pos h2] at hb
      rcases List.mem_cons.mp hb with hb | hb
      · subst hb; exact Or.inl rfl
      · exact Or.inr (List.mem_cons.mpr (Or.inr hb))
    · rw [if_neg h2] at hb
      rcases List.mem_cons.mp hb with hb | hb
      · subst hb; exact Or.inr (by simp)
      · rcases ih b hb with h | h
        · exact Or.inl h
        · exact Or.inr (by simp [h])

theorem hm_insert_distinct (m : List (Input × JsonValue)) (k : Input) (v : JsonValue)
    (h : m.Pairwise (fun p q => p.1 ≠ q.1)) :
    (hm_insert m k v).Pairwise (fun p q => p.1 ≠ q.1) := by
  induction m with
  | nil => simp [hm_insert]
  | cons p rest ih =>
    obtain ⟨k2, v2⟩ := p
    rcases List.pairwise_cons.mp h with ⟨hk2, hrest⟩
    unfold hm_insert
    by_cases h2 : k2 = k
    · rw [if_pos h2]
      exact List.pairwise_cons.mpr ⟨fun b hb => h2 ▸ hk2 b hb, hrest⟩
    · rw [if_neg h2]
      refine List.pairwise_cons.mpr ⟨?_, ih hrest⟩
      intro b hb
      rcases hm_insert_mem rest k v b hb with hbk | hbm
      · rw [hbk]; exact h2
      · exact hk2 b hbm

theorem hm_collect_distinct (tv : List (Input × JsonValue)) :
    (hm_collect tv).Pairwise (fun p q => p.1 ≠ q.1) := by
  unfold hm_collect
  have haux : ∀ m : List (Input × JsonValue), m.Pairwise (fun p q => p.1 ≠ q.1) →
      (tv.foldl (fun m2 kv => hm_insert m2 kv.1 kv.2) m).Pairwise (fun p q => p.1 ≠ q.1) := by
    induction tv with
    | nil => intro m hm; exact hm
    | cons p rest ih =>
      intro m hm
      simp only [List.foldl_cons]
      exact ih _ (hm_insert_distinct m p.1 p.2 hm)
  exact haux [] (by simp)

theorem map_eq_collect (f : Nat) (i r : Input) (m : List (Input × JsonValue))
    (h : parse_json_map f i = some (r, m)) : ∃ tv, m = hm_collect tv := by
  cases f with
  | zero => exact absurd h (by simp [parse_json_map])
  | succ g =>
    unfold parse_json_map at h
    obtain ⟨r1, x, hchar, hrest⟩ := preceded_eq_some h
    obtain ⟨r2, y, hbody, hclose⟩ := terminated_eq_some hrest
    obtain ⟨tv, hlist, hm⟩ := pmap_eq_some hbody
    exact ⟨tv, hm⟩

/-- C5: the Map rule collapses duplicate keys so that the later
(rightmost) pair wins.  First conjunct: every mapping the rule returns
has pairwise-distinct keys (a single entry per key).  Second conjunct:
looking up `k` in the collapsed mapping built by `hm_collect` (the
collecting step of the Map rule) yields exactly the value of the last
pair with key `k`.  Third conjunct: parsing the duplicate-key document
from the spec yields the single entry `"a" := Boolean false`. -/
theorem spec_c5 :
    (∀ f i r m, parse_json_map f i = some (r, m) →
      m.Pairwise (fun p q => p.1 ≠ q.1))
    ∧ (∀ tv k, hm_get (hm_collect tv) k = lastLookup tv k)
    ∧ parse_json_map 9 ("\x7b\"a\": true, \"a\": false\x7d".data)
        = some ([], [(("a".data), JsonValue.Boolean false)]) := by
  refine ⟨?_, hm_collect_get, rfl⟩
  intro f i r m h
  obtain ⟨tv, htv⟩ := map_eq_collect f i r m h
  rw [htv]
  exact hm_collect_distinct tv

/-- C5, witness: the distinct-keys conjunct applied to the concrete
duplicate-key parse. -/
theorem spec_c5_witness :
    ([(("a".data), JsonValue.Boolean false)] : List (Input × JsonValue)).Pairwise
      (fun p q => p.1 ≠ q.1) :=
  spec_c5.1 9 ("\x7b\"a\": true, \"a\": false\x7d".data) [] _ spec_c5.2.2

/-! ### The declarative floating-point-literal grammar (spec, section 4.3) -/

def AllDigits (d : Input) : Prop := ∀ c ∈ d, is_digit c = true

def IsSign (s : Input) : Prop := s = [] ∨ s = ['+'] ∨ s = ['-']

def IsDigits1 (d : Input) : Prop := d ≠ [] ∧ AllDigits d

def IsFrac (f : Input) : Prop := f = [] ∨ ∃ ds, AllDigits ds ∧ f = '.' :: ds

def IsExp (e : Input) : Prop :=
  e = [] ∨ ∃ c sg ds, (c = 'e' ∨ c = 'E') ∧ IsSign sg ∧ IsDigits1 ds ∧ e = c :: (sg ++ ds)

def IsMantissa (m : Input) : Prop :=
  (∃ d f, IsDigits1 d ∧ IsFrac f ∧ m = d ++ f) ∨ (∃ d, IsDigits1 d ∧ m = '.' :: d)

/-- A standard floating-point literal: optional sign, digits (with the
conventional leading-dot form), optional fractional part, optional
exponent. -/
def IsFloatLit (l : Input) : Prop :=
  ∃ sg m e, IsSign sg ∧ IsMantissa m ∧ IsExp e ∧ l = sg ++ m ++ e

def IsBoolLit (l : Input) : Prop := l = trueLit ∨ l = falseLit

def IsQuotedLit (l : Input) : Prop :=
  ∃ content, content ≠ [] ∧ (∀ c ∈ content, is_alphanum c = true) ∧
    l = '"' :: (content ++ ['"'])

/-- A lone Boolean, Number, or String document body. -/
def IsAtom (l : Input) : Prop := IsBoolLit l ∨ IsFloatLit l ∨ IsQuotedLit l

theorem digit_head_facts (c : Char) (h : is_digit c = true) :
    is_ws c = false ∧ c ≠ '{' ∧ c ≠ '[' ∧ c ≠ 'n' := by
  refine ⟨?_, ?_, ?_, ?_⟩
  · cases hw : is_ws c with
    | false => rfl
    | true =>
      exfalso
      unfold is_ws at hw
      rw [decide_eq_true_iff] at hw
      rcases hw with h1 | h1 | h1 | h1 <;> subst h1 <;> exact absurd h (by decide)
  · intro h1; subst h1; exact absurd h (by decide)
  · intro h1; subst h1; exact absurd h (by decide)
  · intro h1; subst h1; exact absurd h (by decide)

/-- Every atom document begins with a character that is not whitespace
and on which all three Root alternatives fail. -/
theorem atom_head (l : Input) (h : IsAtom l) :
    ∃ c t, l = c :: t ∧ is_ws c = false ∧ c ≠ '{' ∧ c ≠ '[' ∧ c ≠ 'n' := by
  rcases h with hb | hf | hq
  · rcases hb with h1 | h1 <;> subst h1
    · exact ⟨'t', _, rfl, by decide, by decide, by decide, by decide⟩
    · exact ⟨'f', _, rfl, by decide, by decide, by decide, by decide⟩
  · obtain ⟨sg, m, e, hsg, hm, _he, hl⟩ := hf
    rcases hsg with h1 | h1 | h1
    · subst h1
      simp only [List.nil_append] at hl
      rcases hm with ⟨d, fr, hd, _hfr, hmm⟩ | ⟨d, hd, hmm⟩
      · obtain ⟨c, t, hdc⟩ := List.exists_cons_of_ne_nil hd.1
        have hdig : is_digit c = true := hd.2 c (by rw [hdc]; simp)
        obtain ⟨f1, f2, f3, f4⟩ := digit_head_facts c hdig
        refine ⟨c, t ++ fr ++ e, ?_, f1, f2, f3, f4⟩
        rw [hl, hmm, hdc]
        simp [List.append_assoc]
      · refine ⟨'.', d ++ e, ?_, by decide, by decide, by decide, by decide⟩
        rw [hl, hmm]
        simp
    · subst h1
      refine ⟨'+', m ++ e, ?_, by decide, by decide, by decide, by decide⟩
      rw [hl]
      simp
    · subst h1
      refine ⟨'-', m ++ e, ?_, by decide, by decide, by decide, by decide⟩
      rw [hl]
      simp
  · obtain ⟨content, _hne, _hall, hl⟩ := hq
    exact ⟨'"', content ++ ['"'], hl, by decide, by decide, by decide, by decide⟩

/-- C2: first conjunct — every all-ASCII document that is a lone
boolean, number, or quoted string (possibly surrounded by whitespace) is
rejected by `JsonValue::from_str`.  Conjuncts two to four: the same
atoms nested as a map value parse successfully.  Last conjunct: every
tree a successful parse returns has a root that is Null, Array, or
Map. -/
theorem spec_c2 :
    (∀ w1 atom w2, (∀ c ∈ w1, is_ws c = true) → (∀ c ∈ w2, is_ws c = true) →
      IsAtom atom → (∀ c ∈ (w1 ++ atom ++ w2), is_ascii c = true) →
      JsonValue.from_str (w1 ++ atom ++ w2) = Except.error JsonError.parseError)
    ∧ JsonValue.from_str ("\x7b\"k\": true\x7d".data)
        = Except.ok (JsonValue.Map [(("k".data), JsonValue.Boolean true)])
    ∧ JsonValue.from_str ("\x7b\"k\": 123\x7d".data)
        = Except.ok (JsonValue.Map [(("k".data), JsonValue.NumberF64 ("123".data))])
    ∧ JsonValue.from_str ("\x7b\"k\": \"ok\"\x7d".data)
        = Except.ok (JsonValue.Map [(("k".data), JsonValue.String ("ok".data))])
    ∧ (∀ s v, JsonValue.from_str s = Except.ok v →
      v = JsonValue.Null ∨ (∃ xs, v = JsonValue.Array xs) ∨ ∃ mp, v = JsonValue.Map mp) := by
  refine ⟨?_, rfl, rfl, rfl, ?_⟩
  · intro w1 atom w2 hw1 hw2 hatom hascii
    obtain ⟨c, t, hat, hws, h1, h2, h3⟩ := atom_head atom hatom
    have hdrop : (w1 ++ atom ++ w2).dropWhile is_ws = c :: (t ++ w2) := by
      rw [hat, List.append_assoc, dropWhile_append_all is_ws w1 _ hw1, List.cons_append]
      exact dropWhile_cons_false is_ws c (t ++ w2) hws
    have hroot : parse_json_root (FUEL (w1 ++ atom ++ w2)) (c :: (t ++ w2)) = none :=
      root_head_fail _ c _ h1 h2 h3
    have hstr : parse_json_str (w1 ++ atom ++ w2) = none := by
      unfold parse_json_str delimited preceded terminated
      simp only [split, take_while, hdrop, hroot]
    unfold JsonValue.from_str
    rw [List.all_eq_true.mpr hascii, hstr]
    simp
  · intro s v h
    unfold JsonValue.from_str at h
    split at h
    · exact absurd h (by simp)
    · split at h
      · rename_i u v1 heq
        simp only [Except.ok.injEq] at h
        subst h
        unfold parse_json_str delimited at heq
        obtain ⟨r1, x, _hsplit, hterm⟩ := preceded_eq_some heq
        obtain ⟨r2, y, hroot, _⟩ := terminated_eq_some hterm
        exact root_shape _ r1 r2 v1 hroot
      · exact absurd h (by simp)

/-- C2, witness: the quantified rejection conjunct applied to the bare
atom "true" with no surrounding whitespace. -/
theorem spec_c2_witness :
    JsonValue.from_str (([] : Input) ++ ("true".data) ++ []) =
      Except.error JsonError.parseError :=
  spec_c2.1 [] ("true".data) [] (by simp) (by simp) (Or.inl (Or.inl rfl)) (by decide)

/-! ### The Number rule matches exactly the float-literal grammar -/

theorem sign_opt_sign (i : Input) : IsSign (sign_opt i).1 := by
  cases i with
  | nil => exact Or.inl rfl
  | cons c r =>
    simp only [sign_opt]
    by_cases h : c = '+' ∨ c = '-'
    · rw [if_pos h]
      rcases h with h | h <;> subst h
      · exact Or.inr (Or.inl rfl)
      · exact Or.inr (Or.inr rfl)
    · rw [if_neg h]
      exact Or.inl rfl

theorem mantissa_part_sound (j j2 m : Input) (h : mantissa_part j = some (j2, m)) :
    IsMantissa m := by
  unfold mantissa_part at h
  split at h
  · rename_i hemp
    split at h
    · exact absurd h (by simp)
    · rename_i c t
      split at h
      · rename_i hc
        subst hc
        split at h
        · exact absurd h (by simp)
        · rename_i hne
          simp only [Option.some.injEq, Prod.mk.injEq] at h
          exact Or.inr ⟨t.takeWhile is_digit,
            ⟨hne, fun c2 hc2 => List.mem_takeWhile_imp hc2⟩, h.2.symm⟩
      · exact absurd h (by simp)
  · rename_i hne
    split at h
    · simp only [Option.some.injEq, Prod.mk.injEq] at h
      exact Or.inl ⟨j.takeWhile is_digit, [],
        ⟨hne, fun c2 hc2 => List.mem_takeWhile_imp hc2⟩, Or.inl rfl, by rw [← h.2]; simp⟩
    · rename_i c t hdw
      split at h
      · rename_i hc
        subst hc
        simp only [Option.some.injEq, Prod.mk.injEq] at h
        exact Or.inl ⟨j.takeWhile is_digit, '.' :: t.takeWhile is_digit,
          ⟨hne, fun c2 hc2 => List.mem_takeWhile_imp hc2⟩,
          Or.inr ⟨t.takeWhile is_digit, fun c2 hc2 => List.mem_takeWhile_imp hc2, rfl⟩,
          h.2.symm⟩
      · simp only [Option.some.injEq, Prod.mk.injEq] at h
        exact Or.inl ⟨j.takeWhile is_digit, [],
          ⟨hne, fun c2 hc2 => List.mem_takeWhile_imp hc2⟩, Or.inl rfl, by rw [← h.2]; simp⟩

theorem exponent_part_sound (i : Input) : IsExp (exponent_part i).2 := by
  cases i with
  | nil => exact Or.inl rfl
  | cons c r =>
    by_cases hc : c = 'e' ∨ c = 'E'
    · by_cases hds : (sign_opt r).2.takeWhile is_digit = []
      · simp only [exponent_part, if_pos hc, if_pos hds]
        exact Or.inl rfl
      · simp only [exponent_part, if_pos hc, if_neg hds]
        exact Or.inr ⟨c, (sign_opt r).1, (sign_opt r).2.takeWhile is_digit, hc,
          sign_opt_sign r, ⟨hds, fun c2 hc2 => List.mem_takeWhile_imp hc2⟩, rfl⟩
    · simp only [exponent_part, if_neg hc]
      exact Or.inl rfl

/-- Soundness half of C7: a successful `double` consumed a well-formed
float literal from the front of the input. -/
theorem double_sound (i r lit : Input) (h : double i = some (r, lit)) :
    IsFloatLit lit ∧ i = lit ++ r := by
  refine ⟨?_, double_suffix i r lit h⟩
  unfold double at h
  split at h
  · exact absurd h (by simp)
  · rename_i i2 m heq
    simp only [Option.some.injEq, Prod.mk.injEq] at h
    exact ⟨(sign_opt i).1, m, (exponent_part i2).2, sign_opt_sign i,
      mantissa_part_sound (sign_opt i).2 i2 m heq, exponent_part_sound i2, h.2.symm⟩

theorem digit_not_sign (c : Char) (h : is_digit c = true) : ¬(c = '+' ∨ c = '-') := by
  rintro (h1 | h1) <;> subst h1 <;> exact absurd h (by decide)

theorem mantissa_part_isSome_digit (d rest : Input) (hd : IsDigits1 d) :
    (mantissa_part (d ++ rest)).isSome = true := by
  obtain ⟨c, t, hdc⟩ := List.exists_cons_of_ne_nil hd.1
  have hdig : is_digit c = true := hd.2 c (by rw [hdc]; simp)
  subst hdc
  have htw : (((c :: t) ++ rest) : Input).takeWhile is_digit ≠ [] := by
    rw [List.cons_append]
    simp [List.takeWhile_cons, hdig]
  unfold mantissa_part
  rw [if_neg htw]
  split
  · simp
  · split <;> simp

theorem mantissa_part_isSome_dot (d rest : Input) (hd : IsDigits1 d) :
    (mantissa_part ('.' :: (d ++ rest))).isSome = true := by
  obtain ⟨c, t, hdc⟩ := List.exists_cons_of_ne_nil hd.1
  have hdig : is_digit c = true := hd.2 c (by rw [hdc]; simp)
  subst hdc
  have h1 : is_digit '.' = false := by decide
  simp [mantissa_part, List.takeWhile_cons, h1, hdig, List.cons_append]

theorem mantissa_part_isSome_of (m rest : Input) (hm : IsMantissa m) :
    (mantissa_part (m ++ rest)).isSome = true := by
  rcases hm with ⟨d, fr, hd, _hfr, hmm⟩ | ⟨d, hd, hmm⟩
  · subst hmm
    rw [List.append_assoc]
    exact mantissa_part_isSome_digit d (fr ++ rest) hd
  · subst hmm
    rw [List.cons_append]
    exact mantissa_part_isSome_dot d rest hd

theorem mantissa_head_not_sign (m rest : Input) (hm : IsMantissa m) :
    sign_opt (m ++ rest) = ([], m ++ rest) := by
  rcases hm with ⟨d, fr, hd, _hfr, hmm⟩ | ⟨d, hd, hmm⟩
  · obtain ⟨c, t, hdc⟩ := List.exists_cons_of_ne_nil hd.1
    have hdig : is_digit c = true := hd.2 c (by rw [hdc]; simp)
    subst hmm
    subst hdc
    simp [sign_opt, List.cons_append, digit_not_sign c hdig]
  · subst hmm
    have hdot : ¬(('.' : Char) = '+' ∨ ('.' : Char) = '-') := by decide
    simp [sign_opt, List.cons_append, hdot]

/-- Completeness half of C7: on any input beginning with a well-formed
float literal, `double` succeeds. -/
theorem double_isSome (i : Input) (h : ∃ lit r, IsFloatLit lit ∧ i = lit ++ r) :
    (double i).isSome = true := by
  obtain ⟨lit, r, ⟨sg, m, e, hsg, hm, _he, hlit⟩, hi⟩ := h
  subst hlit
  subst hi
  have hso : sign_opt (sg ++ m ++ e ++ r) = (sg, m ++ (e ++ r)) := by
    rcases hsg with h1 | h1 | h1 <;> subst h1
    · simp only [List.nil_append, List.append_assoc]
      exact mantissa_head_not_sign m (e ++ r) hm
    · simp [sign_opt, List.cons_append, List.append_assoc]
    · simp [sign_opt, List.cons_append, List.append_assoc]
  have h2 : (mantissa_part (sign_opt (sg ++ m ++ e ++ r)).2).isSome = true := by
    rw [hso]
    exact mantissa_part_isSome_of m (e ++ r) hm
  cases hmp : mantissa_part (sign_opt (sg ++ m ++ e ++ r)).2 with
  | none => rw [hmp] at h2; exact absurd h2 (by simp)
  | some res =>
    obtain ⟨i2, m2⟩ := res
    unfold double
    rw [hmp]
    simp

/-- C7: the Number rule (modelled from the spec, since nom's `double` is
library code) succeeds exactly on inputs beginning with a standard
floating-point literal — optional sign, digits, optional fractional
part, optional exponent.  First conjunct: a success consumed exactly
such a literal (the recognized text is returned as the number's literal
representation).  Second conjunct: whenever such a literal is present at
the current position, the rule succeeds; contrapositively it fails
whenever no such literal is present. -/
theorem spec_c7 (i : Input) :
    (∀ r lit, double i = some (r, lit) → IsFloatLit lit ∧ i = lit ++ r)
    ∧ ((∃ lit r, IsFloatLit lit ∧ i = lit ++ r) → (double i).isSome = true) :=
  ⟨fun r lit h => double_sound i r lit h, fun h => double_isSome i h⟩

/-- C7, witness: `double` consumes "-12.5e3" from "-12.5e3x" and the
consumed text is a float literal. -/
theorem spec_c7_witness :
    IsFloatLit ("-12.5e3".data) ∧ ("-12.5e3x".data : Input) = ("-12.5e3".data) ++ ("x".data) :=
  (spec_c7 ("-12.5e3x".data)).1 ("x".data) ("-12.5e3".data) rfl

/-! ### Fuel stability: FUEL is enough, so the Rust recursion terminates -/

theorem sepLoop_succ_none {σ β : Type} (f : Nat) (sep : Parser σ) (elem : Parser β)
    (i : Input) (acc : List β) (h : sep i = none) :
    sepLoop (f + 1) sep elem i acc = some (i, acc) := by
  unfold sepLoop
  rw [h]

theorem sepLoop_succ_some {σ β : Type} (f : Nat) (sep : Parser σ) (elem : Parser β)
    (i i1 : Input) (s : σ) (acc : List β) (h : sep i = some (i1, s)) :
    sepLoop (f + 1) sep elem i acc =
      if i1.length = i.length then none
      else
        match elem i1 with
        | none => some (i, acc)
        | some (i2, x) => sepLoop f sep elem i2 (acc ++ [x]) := by
  conv_lhs => unfold sepLoop
  rw [h]

/-- The `separated_list0` loop gives the same answer for any two fuel
budgets exceeding the input length, and for any two element parsers that
agree on all inputs it can reach: each continuing iteration strictly
consumes input. -/
theorem sepLoop_congr {σ β : Type} (sep : Parser σ) (e1 e2 : Parser β)
    (hsc : Consumes sep) (hec : Consumes e1) (n : Nat)
    (he : ∀ j : Input, j.length ≤ n → e1 j = e2 j) :
    ∀ f1 f2 i acc, i.length ≤ n → i.length < f1 → i.length < f2 →
      sepLoop f1 sep e1 i acc = sepLoop f2 sep e2 i acc := by
  intro f1
  induction f1 with
  | zero =>
    intro f2 i acc _ h1 _
    exact absurd h1 (Nat.not_lt_zero _)
  | succ g ih =>
    intro f2 i acc hn h1 h2
    cases f2 with
    | zero => exact absurd h2 (Nat.not_lt_zero _)
    | succ f3 =>
      cases hsi : sep i with
      | none =>
        rw [sepLoop_succ_none g sep e1 i acc hsi, sepLoop_succ_none f3 sep e2 i acc hsi]
      | some p =>
        obtain ⟨i1, s1⟩ := p
        rw [sepLoop_succ_some g sep e1 i i1 s1 acc hsi,
          sepLoop_succ_some f3 sep e2 i i1 s1 acc hsi]
        by_cases hl : i1.length = i.length
        · rw [if_pos hl, if_pos hl]
        · rw [if_neg hl, if_neg hl]
          have hlt : i1.length < i.length := lt_of_le_of_ne (hsc i i1 s1 hsi) hl
          rw [← he i1 (le_trans (le_of_lt hlt) hn)]
          cases hei : e1 i1 with
          | none => rfl
          | some q =>
            obtain ⟨i2, x⟩ := q
            show sepLoop g sep e1 i2 (acc ++ [x]) = sepLoop f3 sep e2 i2 (acc ++ [x])
            have hi2 : i2.length < i.length := lt_of_le_of_lt (hec i1 i2 x hei) hlt
            exact ih f3 i2 (acc ++ [x]) (le_trans (le_of_lt hi2) hn)
              (Nat.lt_of_lt_of_le hi2 (Nat.lt_succ_iff.mp h1))
              (Nat.lt_of_lt_of_le hi2 (Nat.lt_succ_iff.mp h2))

theorem sepList0_congr {σ β : Type} (sep : Parser σ) (e1 e2 : Parser β)
    (hsc : Consumes sep) (hec : Consumes e1) (n : Nat)
    (he : ∀ j : Input, j.length ≤ n → e1 j = e2 j)
    (f1 f2 : Nat) (i : Input) (hn : i.length ≤ n) (h1 : i.length < f1) (h2 : i.length < f2) :
    sepList0 f1 sep e1 i = sepList0 f2 sep e2 i := by
  unfold sepList0
  rw [← he i hn]
  cases hei : e1 i with
  | none => rfl
  | some p =>
    obtain ⟨i1, x⟩ := p
    show sepLoop f1 sep e1 i1 [x] = sepLoop f2 sep e2 i1 [x]
    have hi1 : i1.length ≤ i.length := hec i i1 x hei
    exact sepLoop_congr sep e1 e2 hsc hec n he f1 f2 i1 [x] (le_trans hi1 hn)
      (lt_of_le_of_lt hi1 h1) (lt_of_le_of_lt hi1 h2)

/-- The separator of the Array and Map rules. -/
def sepP : Parser Char := preceded split (char_ ',')

/-- The pair parser of the Map rule. -/
def pairP (f : Nat) : Parser (Input × JsonValue) :=
  separated_pair (preceded split parse_string) (preceded split (char_ ':'))
    (parse_json_value f)

theorem consumes_sepP : Consumes sepP :=
  consumes_preceded consumes_split (consumes_char ',')

theorem consumes_pairP (g : Nat) : Consumes (pairP g) :=
  consumes_separated_pair (consumes_preceded consumes_split consumes_parse_string)
    (consumes_preceded consumes_split (consumes_char ':')) (consumes_json g).1

theorem map_succ_eq (g : Nat) (i : Input) :
    parse_json_map (g + 1) i =
      preceded (char_ '{')
        (terminated (pmap (sepList0 (g + 1) sepP (pairP g)) hm_collect)
          (preceded split (char_ '}'))) i := rfl

theorem array_succ_eq (g : Nat) (i : Input) :
    parse_json_array (g + 1) i =
      preceded (char_ '[')
        (terminated (sepList0 (g + 1) sepP (parse_json_value g))
          (preceded split (char_ ']'))) i := rfl

/-- Fuel-stability thresholds for the four mutually recursive rules. -/
def MapStab (i : Input) : Prop :=
  ∀ f1 f2, 3 * i.length + 1 ≤ f1 → 3 * i.length + 1 ≤ f2 →
    parse_json_map f1 i = parse_json_map f2 i

def ArrStab (i : Input) : Prop :=
  ∀ f1 f2, 3 * i.length + 1 ≤ f1 → 3 * i.length + 1 ≤ f2 →
    parse_json_array f1 i = parse_json_array f2 i

def RootStab (i : Input) : Prop :=
  ∀ f1 f2, 3 * i.length + 2 ≤ f1 → 3 * i.length + 2 ≤ f2 →
    parse_json_root f1 i = parse_json_root f2 i

def ValStab (i : Input) : Prop :=
  ∀ f1 f2, 3 * i.length + 3 ≤ f1 → 3 * i.length + 3 ≤ f2 →
    parse_json_value f1 i = parse_json_value f2 i

theorem pairP_congr (n g1 g2 : Nat) (hv : ∀ j : Input, j.length ≤ n → ValStab j)
    (hg1 : 3 * n + 3 ≤ g1) (hg2 : 3 * n + 3 ≤ g2) :
    ∀ j : Input, j.length ≤ n → pairP g1 j = pairP g2 j := by
  intro j hj
  cases hk : preceded split parse_string j with
  | none => simp only [pairP, separated_pair, hk]
  | some p =>
    obtain ⟨r1, k⟩ := p
    cases hcol : preceded split (char_ ':') r1 with
    | none => simp only [pairP, separated_pair, hk, hcol]
    | some q =>
      obtain ⟨r2, u⟩ := q
      have hr1 : r1.length ≤ j.length :=
        consumes_preceded consumes_split consumes_parse_string j r1 k hk
      have hr2 : r2.length ≤ r1.length :=
        consumes_preceded consumes_split (consumes_char ':') r1 r2 u hcol
      have hval : parse_json_value g1 r2 = parse_json_value g2 r2 := by
        have hr2n : r2.length ≤ n := le_trans (le_trans hr2 hr1) hj
        exact hv r2 hr2n g1 g2 (by omega) (by omega)
      simp only [pairP, separated_pair, hk, hcol, hval]

theorem dropWhile_length_eq (p : Char → Bool) (i : Input)
    (h : (i.dropWhile p).length = i.length) : i.dropWhile p = i := by
  have hs := List.takeWhile_append_dropWhile p i
  have hlen : (i.takeWhile p).length + (i.dropWhile p).length = i.length := by
    rw [← List.length_append, hs]
  have h0 : (i.takeWhile p).length = 0 := by omega
  have hnil : i.takeWhile p = [] := List.eq_nil_of_length_eq_zero h0
  conv_rhs => rw [← hs, hnil, List.nil_append]

/-- Joint fuel stability for all four rules, by strong induction on the
input length: any fuel at or above the stated threshold produces the
same result, because every recursive call is made on strictly shorter
input. -/
theorem stab_all : ∀ n : Nat, ∀ i : Input, i.length ≤ n →
    MapStab i ∧ ArrStab i ∧ RootStab i ∧ ValStab i := by
  intro n
  induction n with
  | zero =>
    intro i hi
    have hnil : i = [] := List.eq_nil_of_length_eq_zero (Nat.le_zero.mp hi)
    subst hnil
    refine ⟨?_, ?_, ?_, ?_⟩
    · intro f1 f2 _ _; rw [map_nil, map_nil]
    · intro f1 f2 _ _; rw [array_nil, array_nil]
    · intro f1 f2 _ _; rw [root_nil, root_nil]
    · intro f1 f2 _ _; rw [value_nil, value_nil]
  | succ n ih =>
    intro i hi
    by_cases hle : i.length ≤ n
    · exact ih i hle
    · have hlen : i.length = n + 1 := by omega
      have hv : ∀ j : Input, j.length ≤ n → ValStab j := fun j hj => (ih j hj).2.2.2
      have hmap : MapStab i := by
        intro f1 f2 hf1 hf2
        cases i with
        | nil => rw [map_nil, map_nil]
        | cons c t =>
          have ht : t.length = n := by
            have : (c :: t).length = n + 1 := hlen
            simpa using this
          by_cases hc : c = '{'
          · subst hc
            have hf1n : 3 * (t.length + 1) + 1 ≤ f1 := by simpa using hf1
            have hf2n : 3 * (t.length + 1) + 1 ≤ f2 := by simpa using hf2
            cases f1 with
            | zero => omega
            | succ g1 =>
              cases f2 with
              | zero => omega
              | succ g2 =>
                have hsl : sepList0 (g1 + 1) sepP (pairP g1) t
                    = sepList0 (g2 + 1) sepP (pairP g2) t := by
                  refine sepList0_congr sepP (pairP g1) (pairP g2) consumes_sepP
                    (consumes_pairP g1) n
                    (pairP_congr n g1 g2 hv (by omega) (by omega))
                    (g1 + 1) (g2 + 1) t (by omega) (by omega) (by omega)
                simp only [map_succ_eq, preceded, char_self, terminated, pmap, hsl]
          · rw [map_head_fail f1 c t hc, map_head_fail f2 c t hc]
      have harr : ArrStab i := by
        intro f1 f2 hf1 hf2
        cases i with
        | nil => rw [array_nil, array_nil]
        | cons c t =>
          have ht : t.length = n := by
            have : (c :: t).length = n + 1 := hlen
            simpa using this
          by_cases hc : c = '['
          · subst hc
            have hf1n : 3 * (t.length + 1) + 1 ≤ f1 := by simpa using hf1
            have hf2n : 3 * (t.length + 1) + 1 ≤ f2 := by simpa using hf2
            cases f1 with
            | zero => omega
            | succ g1 =>
              cases f2 with
              | zero => omega
              | succ g2 =>
                have hsl : sepList0 (g1 + 1) sepP (parse_json_value g1) t
                    = sepList0 (g2 + 1) sepP (parse_json_value g2) t := by
                  refine sepList0_congr sepP (parse_json_value g1) (parse_json_value g2)
                    consumes_sepP (consumes_json g1).1 n
                    (fun j hj => hv j hj g1 g2 (by omega) (by omega))
                    (g1 + 1) (g2 + 1) t (by omega) (by omega) (by omega)
                simp only [array_succ_eq, preceded, char_self, terminated, hsl]
          · rw [array_head_fail f1 c t hc, array_head_fail f2 c t hc]
      have hroot : RootStab i := by
        intro f1 f2 hf1 hf2
        cases f1 with
        | zero => omega
        | succ g1 =>
          cases f2 with
          | zero => omega
          | succ g2 =>
            have hmeq : parse_json_map g1 i = parse_json_map g2 i :=
              hmap g1 g2 (by omega) (by omega)
            have haeq : parse_json_array g1 i = parse_json_array g2 i :=
              harr g1 g2 (by omega) (by omega)
            simp only [parse_json_root, palt, pmap, pvalue, hmeq, haeq]
      have hval : ValStab i := by
        intro f1 f2 hf1 hf2
        cases f1 with
        | zero => omega
        | succ g1 =>
          cases f2 with
          | zero => omega
          | succ g2 =>
            have hjle : (i.dropWhile is_ws).length ≤ i.length := length_dropWhile_le is_ws i
            have hrootj : parse_json_root g1 (i.dropWhile is_ws)
                = parse_json_root g2 (i.dropWhile is_ws) := by
              by_cases hj : (i.dropWhile is_ws).length ≤ n
              · exact (ih _ hj).2.2.1 g1 g2 (by omega) (by omega)
              · have heq : i.dropWhile is_ws = i :=
                  dropWhile_length_eq is_ws i (by omega)
                rw [heq]
                exact hroot g1 g2 (by omega) (by omega)
            simp only [parse_json_value, preceded, split, take_while, palt, hrootj]
      exact ⟨hmap, harr, hroot, hval⟩

/-- C8: parsing always terminates with a recursion budget linear in the
input length.  `parse_json_str` runs the Root rule with fuel
`FUEL s = 3|s| + 3`; giving the mutually recursive rules any larger
budget changes nothing, because every recursive call consumes at least
the opening delimiter and is therefore made on strictly shorter input.
This is the embedded form of the claim that `JsonValue::from_str`
terminates on every finite input. -/
theorem spec_c8 (s : Input) (f : Nat) (hf : FUEL s ≤ f) :
    delimited split (parse_json_root f) split s = parse_json_str s := by
  unfold parse_json_str
  have hf2 : 3 * s.length + 3 ≤ f := hf
  have hj : (s.dropWhile is_ws).length ≤ s.length := length_dropWhile_le is_ws s
  have hroot : parse_json_root f (s.dropWhile is_ws)
      = parse_json_root (FUEL s) (s.dropWhile is_ws) := by
    have hstab := (stab_all s.length (s.dropWhile is_ws) hj).2.2.1
    have hfuel : 3 * s.length + 3 ≤ FUEL s := le_refl _
    exact hstab f (FUEL s) (by omega) (by omega)
  simp only [delimited, preceded, split, take_while, terminated, hroot]

/-- C8, witness: a budget of 100 gives the same parse as the built-in
budget on a concrete input. -/
theorem spec_c8_witness :
    delimited split (parse_json_root 100) split ("null".data)
      = parse_json_str ("null".data) :=
  spec_c8 ("null".data) 100 (by decide)

end NomJson
